import Mathlib

/-!
Verification of the polynomial proof core of the apk-proofs repository
(`bw6` crate).  The development embeds, as executable Lean definitions,
the register/constraint system of `src/constraints.rs`, the keyset
construction of `src/keyset.rs`, the prover pipeline of `src/prover.rs`,
and the public-input constructors of `src/lib.rs`.

Polynomials are represented by their little-endian coefficient lists
(`List F`), mirroring arkworks' `DensePolynomial`.  Evaluation-form
register tables over the FFT domains are represented by the lists of
values of the corresponding interpolation polynomials at the domain
points; pointwise table arithmetic followed by interpolation — the job
of the repository's `Domains` ("amplified domain") machinery — is
embedded as interpolation of the pointwise-combined value tables over
the 4n-point domain, exactly the chain the code performs.
-/

namespace ApkProofs

/-! ### Executable coefficient-list polynomials -/

/-- Evaluation of a little-endian coefficient list at a point (Horner). -/
def evalPoly {F : Type} [CommSemiring F] (p : List F) (x : F) : F :=
  p.foldr (fun a acc => a + x * acc) 0

/-- Coefficient of `X^i` (0 beyond the list). -/
def coeff {F : Type} [CommSemiring F] (p : List F) (i : Nat) : F :=
  p.getD i 0

/-- Pointwise sum of coefficient lists (the longer tail is kept). -/
def polyAdd {F : Type} [CommSemiring F] : List F → List F → List F
  | [], q => q
  | p, [] => p
  | a :: p, b :: q => (a + b) :: polyAdd p q

/-- Negation of a coefficient list. -/
def polyNeg {F : Type} [CommRing F] (p : List F) : List F :=
  p.map (fun a => -a)

/-- Difference of coefficient lists. -/
def polySub {F : Type} [CommRing F] (p q : List F) : List F :=
  polyAdd p (polyNeg q)

/-- Scalar multiple of a coefficient list. -/
def scalePoly {F : Type} [CommSemiring F] (c : F) (p : List F) : List F :=
  p.map (fun a => c * a)

/-- Product of coefficient lists. -/
def polyMul {F : Type} [CommSemiring F] : List F → List F → List F
  | [], _ => []
  | a :: p, q => polyAdd (scalePoly a q) (0 :: polyMul p q)

/-! ### Executable Lagrange interpolation over a list of nodes -/

/-- Monic product `∏ (X - c)` over the given list of points. -/
def nodalPoly {F : Type} [CommRing F] (xs : List F) : List F :=
  xs.foldr (fun c acc => polyMul [-c, 1] acc) [1]

/-- Lagrange interpolation of the value list `vals` over the node list
`nodes`: the sum over `i` of `vals[i] / ∏_{j ≠ i}(nodes[i] - nodes[j])`
times the nodal polynomial of the other nodes.  Embeds the evaluation
form → coefficient form conversion (`interpolate`) of the repository's
domain machinery. -/
def interp {F : Type} [Field F] (nodes vals : List F) : List F :=
  (List.range nodes.length).foldr
    (fun i acc =>
      polyAdd
        (scalePoly
          (vals.getD i 0 / evalPoly (nodalPoly (nodes.eraseIdx i)) (nodes.getD i 0))
          (nodalPoly (nodes.eraseIdx i)))
        acc)
    []

/-! ### Synthetic division, root bounds and uniqueness of interpolation -/

/-- Quotient of `p` by the linear factor `X - c` (synthetic division,
remainder dropped). -/
def divLin {F : Type} [CommRing F] (c : F) : List F → List F
  | [] => []
  | [_] => []
  | _ :: b :: rest => evalPoly (b :: rest) c :: divLin c (b :: rest)

/-! ### Domain machinery (`Domains`) -/

/-- Modelled from the spec: `src/domains.rs` is not part of the provided
sources.  Per §4.1 the evaluation-domain manager owns a power-of-two FFT
domain of size `n` and a 4×-larger "amplified" domain, represents
polynomials as value tables over them and converts between point-value
and coefficient representation.  We model a domain pair by the lists of
its points; interpolation is `interp`, evaluation over a domain is a
`map` of `evalPoly`. -/
structure Domains (F : Type) where
  baseNodes : List F
  bigNodes : List F

namespace Domains

variable {F : Type} [Field F]

/-- Size of the base domain (`Domains::size`). -/
def size (d : Domains F) : Nat := d.baseNodes.length

/-- Amplification: interpolate a value table over the base domain and
re-evaluate the polynomial over the 4×-larger domain. -/
def amplify (d : Domains F) (vals : List F) : List F :=
  d.bigNodes.map (evalPoly (interp d.baseNodes vals))

/-- Value table of a constant over the amplified domain
(`Domains::constant_4x`). -/
def constant_4x (d : Domains F) (c : F) : List F :=
  d.bigNodes.map (fun _ => c)

/-- Well-formedness of a domain pair: pairwise-distinct points in both
domains, the base domain contained in the amplified one, and the 4×
size relation. -/
def wf (d : Domains F) : Prop :=
  d.baseNodes.Pairwise (· ≠ ·) ∧ d.bigNodes.Pairwise (· ≠ ·) ∧
    (∀ x ∈ d.baseNodes, x ∈ d.bigNodes) ∧ d.bigNodes.length = 4 * d.baseNodes.length

instance (d : Domains F) [DecidableEq F] : Decidable d.wf := by
  unfold wf
  infer_instance

end Domains

/-- Truncate-or-pad to length `n` (the semantics of Rust `Vec::resize`). -/
def resize {α : Type} (l : List α) (n : Nat) (pad : α) : List α :=
  l.take n ++ List.replicate (n - l.length) pad

/-! ### Register polynomials (`src/constraints.rs`, `Registers`) -/

/-- Register value tables in evaluation form, amplified to the 4n-point
domain (`Registers` of `src/constraints.rs`). -/
structure Registers (F : Type) where
  domains : Domains F
  bitmask : List F
  pks_x : List F
  pks_y : List F
  apk_acc_x : List F
  apk_acc_y : List F
  apk_acc_x_shifted : List F
  apk_acc_y_shifted : List F

namespace Registers

variable {F : Type} [Field F]

/-- Embedding of `Registers::new_unchecked`: amplify every supplied value table. -/
def new_unchecked (domains : Domains F) (bitmask : List F)
    (pks : List F × List F) (apk_acc : List F × List F)
    (apk_acc_shifted : List F × List F) : Registers F :=
  { domains := domains
    bitmask := domains.amplify bitmask
    pks_x := domains.amplify pks.1
    pks_y := domains.amplify pks.2
    apk_acc_x := domains.amplify apk_acc.1
    apk_acc_y := domains.amplify apk_acc.2
    apk_acc_x_shifted := domains.amplify apk_acc_shifted.1
    apk_acc_y_shifted := domains.amplify apk_acc_shifted.2 }

/-- Embedding of `Registers::new`: zero-extend the bitmask bits to the domain size,
split the keys into coordinate tables, and build the shifted accumulator
tables by a left rotation (with wraparound) of the accumulator tables. -/
def new (domains : Domains F) (bitmask : List Bool) (pks : List (F × F))
    (apk_acc : List F × List F) : Registers F :=
  let bitmaskF := resize (bitmask.map (fun b => if b then (1 : F) else 0)) domains.size 0
  let pksCoords := (pks.map Prod.fst, pks.map Prod.snd)
  let apk_acc_x_shifted := apk_acc.1.rotate 1
  let apk_acc_y_shifted := apk_acc.2.rotate 1
  new_unchecked domains bitmaskF pksCoords apk_acc (apk_acc_x_shifted, apk_acc_y_shifted)

end Registers

/-! ### Constraint polynomials (`src/constraints.rs`, `Constraints`) -/

namespace Constraints

variable {F : Type} [Field F]

/-- Embedding of `Constraints::compute_bitmask_booleanity_constraint_polynomial`:
interpolation over the amplified domain of the pointwise product
`b · (1 - b)` of the amplified bitmask table. -/
def compute_bitmask_booleanity_constraint_polynomial (r : Registers F) : List F :=
  let b := r.bitmask
  let one_minus_b := List.zipWith (· - ·) (r.domains.constant_4x 1) b
  interp r.domains.bigNodes (List.zipWith (· * ·) b one_minus_b)

/-- Embedding of `Constraints::evaluate_bitmask_booleanity_constraint`. -/
def evaluate_bitmask_booleanity_constraint (bitmask_at_zeta : F) : F :=
  bitmask_at_zeta * (1 - bitmask_at_zeta)

/-- Embedding of `Constraints::compute_conditional_affine_addition_constraint_polynomials`:
the two conditional-addition constraint value tables, computed pointwise
over the amplified domain exactly as the source nests the operations,
then interpolated. -/
def compute_conditional_affine_addition_constraint_polynomials (r : Registers F) :
    List F × List F :=
  let b := r.bitmask
  let one_minus_b := List.zipWith (· - ·) (r.domains.constant_4x 1) b
  let x1 := r.apk_acc_x
  let y1 := r.apk_acc_y
  let x2 := r.pks_x
  let y2 := r.pks_y
  let x3 := r.apk_acc_x_shifted
  let y3 := r.apk_acc_y_shifted
  let c1 :=
    List.zipWith (· + ·)
      (List.zipWith (· * ·) b
        (List.zipWith (· - ·)
          (List.zipWith (· * ·)
            (List.zipWith (· * ·) (List.zipWith (· - ·) x1 x2) (List.zipWith (· - ·) x1 x2))
            (List.zipWith (· + ·) (List.zipWith (· + ·) x1 x2) x3))
          (List.zipWith (· * ·) (List.zipWith (· - ·) y2 y1) (List.zipWith (· - ·) y2 y1))))
      (List.zipWith (· * ·) one_minus_b (List.zipWith (· - ·) y3 y1))
  let c2 :=
    List.zipWith (· + ·)
      (List.zipWith (· * ·) b
        (List.zipWith (· - ·)
          (List.zipWith (· * ·) (List.zipWith (· - ·) x1 x2) (List.zipWith (· + ·) y3 y1))
          (List.zipWith (· * ·) (List.zipWith (· - ·) y2 y1) (List.zipWith (· - ·) x3 x1))))
      (List.zipWith (· * ·) one_minus_b (List.zipWith (· - ·) x3 x1))
  (interp r.domains.bigNodes c1, interp r.domains.bigNodes c2)

end Constraints

/-! ### The conditional affine-addition constraints -/

section CondAdd

variable {F : Type} [Field F]

/-- The spec's first conditional-addition constraint formula
`C1 = b·[(x1−x2)²·(x1+x2+x3) − (y2−y1)²] + (1−b)·(y3−y1)`. -/
def specC1 (b x1 y1 x2 y2 x3 y3 : F) : F :=
  b * ((x1 - x2) ^ 2 * (x1 + x2 + x3) - (y2 - y1) ^ 2) + (1 - b) * (y3 - y1)

/-- The spec's second conditional-addition constraint formula
`C2 = b·[(x1−x2)·(y3+y1) − (y2−y1)·(x3−x1)] + (1−b)·(x3−x1)`. -/
def specC2 (b x1 y1 x2 y2 x3 y3 : F) : F :=
  b * ((x1 - x2) * (y3 + y1) - (y2 - y1) * (x3 - x1)) + (1 - b) * (x3 - x1)

/-- Interpolations, over the amplified domain, of the spec's constraint
formulas applied to the registers, with the shifted accumulator registers
being the left rotation (with wraparound) of the accumulator registers.
This is the spec-side description of
`compute_conditional_affine_addition_constraint_polynomials`. -/
def condConstraintSpecPolys (d : Domains F) (bits : List Bool)
    (pks : List (F × F)) (acc : List F × List F) : List F × List F :=
  let bF := interp d.baseNodes
    (resize (bits.map fun b => if b then (1 : F) else 0) d.size 0)
  let x1P := interp d.baseNodes acc.1
  let y1P := interp d.baseNodes acc.2
  let x2P := interp d.baseNodes (pks.map Prod.fst)
  let y2P := interp d.baseNodes (pks.map Prod.snd)
  let x3P := interp d.baseNodes (acc.1.rotate 1)
  let y3P := interp d.baseNodes (acc.2.rotate 1)
  (interp d.bigNodes (d.bigNodes.map fun z =>
      specC1 (evalPoly bF z) (evalPoly x1P z) (evalPoly y1P z) (evalPoly x2P z)
        (evalPoly y2P z) (evalPoly x3P z) (evalPoly y3P z)),
   interp d.bigNodes (d.bigNodes.map fun z =>
      specC2 (evalPoly bF z) (evalPoly x1P z) (evalPoly y1P z) (evalPoly x2P z)
        (evalPoly y2P z) (evalPoly x3P z) (evalPoly y3P z)))

/-- The x-coordinate of the affine chord addition of two points with
distinct x-coordinates. -/
def ecAddX (x1 y1 x2 y2 : F) : F :=
  ((y2 - y1) / (x2 - x1)) ^ 2 - x1 - x2

/-- The y-coordinate of the affine chord addition. -/
def ecAddY (x1 y1 x2 y2 : F) : F :=
  ((y2 - y1) / (x2 - x1)) * (x1 - ecAddX x1 y1 x2 y2) - y1

end CondAdd

/-! ### Keyset (`src/keyset.rs`) -/

/-- The byte string `b"apk-proofs"` passed to `hash_to_curve` to derive
the padding key. -/
def apkProofsLabel : List Nat := [97, 112, 107, 45, 112, 114, 111, 111, 102, 115]

/-- Size of `Radix2EvaluationDomain::new(k)` (external arkworks
collaborator): the smallest power of two that is at least `k`. -/
def nextPow2 (k : Nat) : Nat := 2 ^ Nat.clog 2 k

/-- The keyset: the real (unpadded) keys, the padded key vector, the two
interpolating coordinate polynomials and the interpolation domain
(`Keyset` of `src/keyset.rs`; the model additionally keeps the padded
vector, an intermediate of `Keyset::new`, to state properties about it). -/
structure Keyset (P F : Type) where
  pks : List P
  padded_pks : List P
  pks_polys : List F × List F
  domainSize : Nat
  domainNodes : List F

namespace Keyset

variable {P F : Type} [Field F]

/-- Embedding of `Keyset::new`: pick the smallest power-of-two domain of size at least
`pks.len() + 1` (the extra slot holds the accumulator's initial value),
pad the key vector to the domain size with the hash-to-curve padding
point, split into coordinates (`normalize_batch` plus coordinate
extraction, the external curve library, is modelled by `coords`), and
interpolate the two padded coordinate vectors over the domain (whose
point enumeration, owned by the external arkworks domain object, is
modelled by `nodesOf`). -/
def new (nodesOf : Nat → List F) (coords : P → F × F)
    (hashToCurve : List Nat → P) (pks : List P) : Keyset P F :=
  let min_domain_size := pks.length + 1
  let n := nextPow2 min_domain_size
  let padding_pk := hashToCurve apkProofsLabel
  let padded_pks := resize pks n padding_pk
  let pks_x := padded_pks.map (fun p => (coords p).1)
  let pks_y := padded_pks.map (fun p => (coords p).2)
  { pks := pks
    padded_pks := padded_pks
    pks_polys := (interp (nodesOf n) pks_x, interp (nodesOf n) pks_y)
    domainSize := n
    domainNodes := nodesOf n }

/-- Embedding of `Keyset::size`: the number of real keys, not counting the padding. -/
def size (ks : Keyset P F) : Nat := ks.pks.length

/-- Embedding of `Keyset::aggregate`: the sum of the unpadded keys selected by the
bitmask (zip with the bits, keep the set positions, sum). -/
def aggregate [AddCommMonoid P] (ks : Keyset P F) (bitmask : List Bool) : P :=
  (((bitmask.zip ks.pks).filter (fun bp => bp.1)).map (fun bp => bp.2)).sum

end Keyset

instance fact_prime_17 : Fact (Nat.Prime 17) := ⟨by norm_num⟩

/-! ### Bitmask (spec-modelled) and public inputs (`src/lib.rs`) -/

/-- Modelled from the spec: `src/bitmask.rs` is not among the provided
sources.  Per §3 a bitmask is an ordered bit sequence of length equal to
the keyset size; `count_ones` counts its set bits. -/
def countOnes (bm : List Bool) : Nat := bm.count true

/-- Number of set bits written as a sum of 0/1 indicators. -/
def hammingWeight (bm : List Bool) : Nat :=
  (bm.map (fun b => if b then 1 else 0)).sum

/-- Public input of the basic and packed schemes
(`AccountablePublicInput` of `src/lib.rs`): the aggregate key and the
bitmask. -/
structure AccountablePublicInput (P : Type) where
  apk : P
  bitmask : List Bool

/-- Embedding of `AccountablePublicInput::new`. -/
def AccountablePublicInput.new {P : Type} (apk : P) (bm : List Bool) :
    AccountablePublicInput P :=
  { apk := apk, bitmask := bm }

/-- Public input of the counting scheme (`CountingPublicInput` of
`src/lib.rs`): the aggregate key and the number of signers. -/
structure CountingPublicInput (P : Type) where
  apk : P
  count : Nat

/-- Embedding of `CountingPublicInput::new`: the count is `bitmask.count_ones()`. -/
def CountingPublicInput.new {P : Type} (apk : P) (bm : List Bool) :
    CountingPublicInput P :=
  { apk := apk, count := countOnes bm }

/-! ### Prover (`src/prover.rs`) -/

/-- The two input-validation failures of `Prover::prove` (the two
`assert!`s at the top of `prove`, surfaced as errors). -/
inductive ProverError : Type
  | bitmaskLengthMismatch : ProverError
  | emptyBitmask : ProverError
deriving DecidableEq

/-- Prover state: the keyset and the preprocessed transcript
(`Prover` of `src/prover.rs`; the KZG committer key of the source lives
inside the external commitment service and carries no information used
by the properties below). -/
structure Prover (P F : Type) where
  keyset : Keyset P F
  preprocessedTranscript : List Nat

/-- Modelled from the spec: `src/transcript.rs` is not among the provided
sources.  Per §6 the Fiat–Shamir transcript yields each challenge as a
deterministic pure function of the absorbed byte sequence; we model the
absorbed sequence as a list of naturals and the challenge extraction as
a fixed fold. -/
def fsChallenge (t : List Nat) : Nat := t.foldl (fun a m => 31 * a + m + 1) 7

/-- Modelled from the spec: the round messages of `Prover::prove`
(register commitments, quotient commitment, evaluations, openings) are
built by the piop register builders, whose sources
(`src/piop/affine_addition.rs` etc.) are not provided; the proof object
is abstracted to the aggregate key it attests to and the Fiat–Shamir
challenges of the four rounds. -/
structure ProofData (P : Type) where
  apk : P
  challenges : List Nat

/-- Embedding of `Prover::prove` (generic over the scheme): validate the bitmask
(`assert_eq!(bitmask.size(), keyset.size())`,
`assert!(bitmask.count_ones() > 0)`) before any other work; then compute
the aggregate key, build the scheme's public input, and run the
commit/challenge rounds, each challenge a pure function of everything
absorbed so far.  `newPI` is the scheme's public-input constructor
(`P::PI::new`), `encPI` the transcript encoding of the public input,
`commitEnc` the encoding of the first-round register commitments and
`round2enc` that of the scheme's second-round commitments. -/
def Prover.prove {P F : Type} [Field F] [AddCommMonoid P] {PI : Type}
    (pr : Prover P F) (newPI : P → List Bool → PI) (encPI : PI → List Nat)
    (commitEnc : List Bool → List Nat) (round2enc : Nat → List Nat)
    (bitmask : List Bool) : Except ProverError (ProofData P × PI) :=
  if bitmask.length ≠ pr.keyset.size then .error .bitmaskLengthMismatch
  else if ¬ 0 < countOnes bitmask then .error .emptyBitmask
  else
    let apk := pr.keyset.aggregate bitmask
    let publicInput := newPI apk bitmask
    let t1 := pr.preprocessedTranscript ++ encPI publicInput ++ commitEnc bitmask
    let r := fsChallenge t1
    let t2 := t1 ++ round2enc r
    let phi := fsChallenge t2
    let zeta := fsChallenge (t2 ++ [phi])
    let nu := fsChallenge (t2 ++ [phi, zeta])
    .ok ({ apk := apk, challenges := [r, phi, zeta, nu] }, publicInput)

/-- Embedding of `Prover::prove_simple`: the basic scheme (second round empty). -/
def Prover.prove_simple {P F : Type} [Field F] [AddCommMonoid P] (pr : Prover P F)
    (encPI : AccountablePublicInput P → List Nat) (commitEnc : List Bool → List Nat)
    (bitmask : List Bool) :
    Except ProverError (ProofData P × AccountablePublicInput P) :=
  pr.prove AccountablePublicInput.new encPI commitEnc (fun _ => []) bitmask

/-- Embedding of `Prover::prove_packed`: the packed scheme (challenge-dependent second
round). -/
def Prover.prove_packed {P F : Type} [Field F] [AddCommMonoid P] (pr : Prover P F)
    (encPI : AccountablePublicInput P → List Nat) (commitEnc : List Bool → List Nat)
    (round2enc : Nat → List Nat) (bitmask : List Bool) :
    Except ProverError (ProofData P × AccountablePublicInput P) :=
  pr.prove AccountablePublicInput.new encPI commitEnc round2enc bitmask

/-- Embedding of `Prover::prove_counting`: the counting scheme. -/
def Prover.prove_counting {P F : Type} [Field F] [AddCommMonoid P] (pr : Prover P F)
    (encPI : CountingPublicInput P → List Nat) (commitEnc : List Bool → List Nat)
    (bitmask : List Bool) :
    Except ProverError (ProofData P × CountingPublicInput P) :=
  pr.prove CountingPublicInput.new encPI commitEnc (fun _ => []) bitmask

/-- The scheme's public input extracted from a prover run (`None` when the
prover rejected). -/
def provedPI {E Pf PI : Type} (r : Except E (Pf × PI)) : Option PI :=
  r.toOption.map Prod.snd

/-- A concrete prover over the integers (as the additive stand-in for the
opaque elliptic-curve group) whose two keys are inverse to each other, so
the full bitmask selects a subset summing to the group identity. -/
def proverZ : Prover Int (ZMod 17) :=
  { keyset := Keyset.new (fun k => List.replicate k 0) (fun _ => (0, 0))
      (fun _ => 0) [1, -1]
    preprocessedTranscript := [] }

/-! ### Concrete domain instances over `ZMod 17` used by the witnesses -/

/-- A concrete well-formed domain pair over `ZMod 17`: base domain of size 2
generated by 16, amplified domain of size 8 generated by 9. -/
def d17 : Domains (ZMod 17) :=
  { baseNodes := [1, 16], bigNodes := [1, 9, 13, 15, 16, 8, 4, 2] }

/-! ## Theorems -/

section PolyLemmas

variable {F : Type} [CommSemiring F]

@[simp] theorem evalPoly_nil (x : F) : evalPoly [] x = 0 := rfl

@[simp] theorem evalPoly_cons (a : F) (p : List F) (x : F) :
    evalPoly (a :: p) x = a + x * evalPoly p x := rfl

theorem evalPoly_polyAdd (p q : List F) (x : F) :
    evalPoly (polyAdd p q) x = evalPoly p x + evalPoly q x := by
  induction p generalizing q with
  | nil => simp [polyAdd]
  | cons a p ih =>
    cases q with
    | nil => simp [polyAdd]
    | cons b q =>
      simp only [polyAdd, evalPoly_cons, ih]
      ring

theorem evalPoly_scalePoly (c : F) (p : List F) (x : F) :
    evalPoly (scalePoly c p) x = c * evalPoly p x := by
  induction p with
  | nil => simp [scalePoly]
  | cons a p ih =>
    simp only [scalePoly, List.map_cons, evalPoly_cons] at *
    rw [ih]
    ring

theorem evalPoly_polyMul (p q : List F) (x : F) :
    evalPoly (polyMul p q) x = evalPoly p x * evalPoly q x := by
  induction p with
  | nil => simp [polyMul]
  | cons a p ih =>
    simp only [polyMul, evalPoly_polyAdd, evalPoly_scalePoly, evalPoly_cons, ih]
    ring

theorem evalPoly_polyNeg {F : Type} [CommRing F] (p : List F) (x : F) :
    evalPoly (polyNeg p) x = -evalPoly p x := by
  induction p with
  | nil => simp [polyNeg]
  | cons a p ih =>
    simp only [polyNeg, List.map_cons, evalPoly_cons] at *
    rw [ih]
    ring

theorem evalPoly_polySub {F : Type} [CommRing F] (p q : List F) (x : F) :
    evalPoly (polySub p q) x = evalPoly p x - evalPoly q x := by
  simp [polySub, evalPoly_polyAdd, evalPoly_polyNeg, sub_eq_add_neg]

@[simp] theorem coeff_nil (i : Nat) : coeff ([] : List F) i = 0 := by
  simp [coeff]

@[simp] theorem coeff_cons_zero (a : F) (p : List F) : coeff (a :: p) 0 = a := rfl

@[simp] theorem coeff_cons_succ (a : F) (p : List F) (i : Nat) :
    coeff (a :: p) (i + 1) = coeff p i := rfl

theorem coeff_polyAdd (p q : List F) (i : Nat) :
    coeff (polyAdd p q) i = coeff p i + coeff q i := by
  induction p generalizing q i with
  | nil => simp [polyAdd]
  | cons a p ih =>
    cases q with
    | nil => simp [polyAdd]
    | cons b q =>
      cases i with
      | zero => simp [polyAdd]
      | succ i => simp [polyAdd, ih]

theorem coeff_scalePoly (c : F) (p : List F) (i : Nat) :
    coeff (scalePoly c p) i = c * coeff p i := by
  induction p generalizing i with
  | nil => simp [scalePoly]
  | cons a p ih =>
    cases i with
    | zero => simp [scalePoly]
    | succ i => simpa [scalePoly] using ih i

theorem coeff_eq_zero_of_length_le {p : List F} {i : Nat} (h : p.length ≤ i) :
    coeff p i = 0 := by
  simp [coeff, List.getD_eq_getElem?_getD, List.getElem?_eq_none h]

theorem length_polyAdd (p q : List F) :
    (polyAdd p q).length = max p.length q.length := by
  induction p generalizing q with
  | nil => simp [polyAdd]
  | cons a p ih =>
    cases q with
    | nil => simp [polyAdd]
    | cons b q => simp [polyAdd, ih, Nat.succ_max_succ]

@[simp] theorem length_scalePoly (c : F) (p : List F) :
    (scalePoly c p).length = p.length := by
  simp [scalePoly]

theorem length_polyMul (p q : List F) :
    (polyMul p q).length ≤ p.length + q.length := by
  induction p with
  | nil => simp [polyMul]
  | cons a p ih =>
    simp only [polyMul, length_polyAdd, length_scalePoly, List.length_cons]
    omega

end PolyLemmas

section InterpLemmas

variable {F : Type} [CommRing F]

theorem evalPoly_nodalPoly (xs : List F) (y : F) :
    evalPoly (nodalPoly xs) y = (xs.map (fun c => y - c)).prod := by
  induction xs with
  | nil => simp [nodalPoly, evalPoly]
  | cons c xs ih =>
    simp only [nodalPoly, List.foldr_cons, List.map_cons, List.prod_cons] at *
    rw [evalPoly_polyMul, ih]
    simp [evalPoly]
    ring

theorem evalPoly_nodalPoly_eq_zero {xs : List F} {y : F} (h : y ∈ xs) :
    evalPoly (nodalPoly xs) y = 0 := by
  rw [evalPoly_nodalPoly]
  exact List.prod_eq_zero (by simpa using ⟨y, h, sub_self y⟩)

theorem length_polyMul_linear (c : F) (p : List F) (hp : 1 ≤ p.length) :
    (polyMul [-c, 1] p).length = p.length + 1 := by
  have h1 : polyMul [-c, (1 : F)] p = polyAdd (scalePoly (-c) p) (0 :: polyMul [1] p) := rfl
  have h2 : polyMul [(1 : F)] p = polyAdd (scalePoly 1 p) [0] := by
    simp [polyMul, polyAdd]
  rw [h1, h2, length_polyAdd, length_scalePoly, List.length_cons, length_polyAdd,
    length_scalePoly]
  simp only [List.length_singleton]
  omega

theorem length_nodalPoly (xs : List F) : (nodalPoly xs).length = xs.length + 1 := by
  induction xs with
  | nil => simp [nodalPoly]
  | cons c xs ih =>
    show (polyMul [-c, 1] (nodalPoly xs)).length = _
    rw [length_polyMul_linear c _ (by rw [ih]; omega), ih, List.length_cons]

theorem evalPoly_nodalPoly_ne_zero {F : Type} [Field F] {xs : List F} {y : F}
    (h : ∀ c ∈ xs, y ≠ c) : evalPoly (nodalPoly xs) y ≠ 0 := by
  rw [evalPoly_nodalPoly]
  refine List.prod_ne_zero ?_
  intro hz
  rcases List.mem_map.mp hz with ⟨c, hc, hc0⟩
  exact h c hc (by rwa [sub_eq_zero] at hc0)

theorem evalPoly_foldr_polyAdd (l : List Nat) (f : Nat → List F) (x : F) :
    evalPoly (l.foldr (fun i acc => polyAdd (f i) acc) []) x =
      (l.map (fun i => evalPoly (f i) x)).sum := by
  induction l with
  | nil => simp
  | cons i l ih => simp [evalPoly_polyAdd, ih]

theorem sum_range_map_eq_single (n k : Nat) (hk : k < n) (g : Nat → F)
    (h0 : ∀ i, i < n → i ≠ k → g i = 0) :
    ((List.range n).map g).sum = g k := by
  induction n with
  | zero => omega
  | succ n ih =>
    rw [List.range_succ, List.map_append, List.sum_append]
    by_cases hkn : k = n
    · subst hkn
      have : ((List.range k).map g).sum = 0 := by
        refine List.sum_eq_zero ?_
        intro v hv
        rcases List.mem_map.mp hv with ⟨i, hi, rfl⟩
        exact h0 i (by simpa using Nat.lt_succ_of_lt (List.mem_range.mp hi)) (by
          have := List.mem_range.mp hi; omega)
      simp [this]
    · have hk' : k < n := by omega
      rw [ih hk' (fun i hi hik => h0 i (by omega) hik)]
      simp [h0 n (by omega) (fun h => hkn h.symm)]

omit [CommRing F] in
theorem mem_eraseIdx_of_ne {l : List F} {k i : Nat} (hk : k < l.length) (hne : k ≠ i) :
    l[k] ∈ l.eraseIdx i := by
  rcases Nat.lt_or_ge k i with h | h
  · have hkl : k < (l.eraseIdx i).length := by
      rw [List.length_eraseIdx]
      split <;> omega
    have : (l.eraseIdx i)[k] = l[k] := List.getElem_eraseIdx_of_lt l i k hkl h
    rw [← this]
    exact List.getElem_mem hkl
  · have hki : i < k := by omega
    have hkl : k - 1 < (l.eraseIdx i).length := by
      rw [List.length_eraseIdx]
      split <;> omega
    have : (l.eraseIdx i)[k - 1] = l[k] := by
      rw [List.getElem_eraseIdx]
      split
      · omega
      · congr 1
        omega
    rw [← this]
    exact List.getElem_mem hkl

omit [CommRing F] in
theorem forall_mem_eraseIdx_ne {l : List F} {k : Nat} (hk : k < l.length)
    (hdist : l.Pairwise (· ≠ ·)) : ∀ c ∈ l.eraseIdx k, l[k] ≠ c := by
  intro c hc
  have hdist' := List.pairwise_iff_getElem.mp hdist
  rw [List.mem_iff_getElem] at hc
  rcases hc with ⟨j, hj, rfl⟩
  have hlen : (l.eraseIdx k).length = l.length - 1 := by
    rw [List.length_eraseIdx]
    simp [hk]
  rcases Nat.lt_or_ge j k with h | h
  · have : (l.eraseIdx k)[j] = l[j] := List.getElem_eraseIdx_of_lt l k j hj h
    rw [this]
    exact fun hEq => (hdist' j k (by omega) hk h) hEq.symm
  · have hj1 : j + 1 < l.length := by omega
    have : (l.eraseIdx k)[j] = l[j + 1] := by
      rw [List.getElem_eraseIdx]
      split
      · omega
      · rfl
    rw [this]
    exact hdist' k (j + 1) hk hj1 (by omega)

/-- Interpolation correctness: at the `k`-th node the interpolation of the
value table evaluates to the `k`-th value (nodes pairwise distinct). -/
theorem evalPoly_interp_at_node {F : Type} [Field F] (nodes vals : List F)
    (hdist : nodes.Pairwise (· ≠ ·)) (k : Nat) (hk : k < nodes.length) :
    evalPoly (interp nodes vals) (nodes.getD k 0) = vals.getD k 0 := by
  unfold interp
  rw [evalPoly_foldr_polyAdd]
  have hgetD : nodes.getD k 0 = nodes[k] := List.getD_eq_getElem nodes 0 hk
  rw [sum_range_map_eq_single nodes.length k hk _ ?side]
  case side =>
    intro i hi hik
    rw [evalPoly_scalePoly]
    have hmem : nodes.getD k 0 ∈ nodes.eraseIdx i := by
      rw [hgetD]
      exact mem_eraseIdx_of_ne hk (fun h => hik h.symm)
    rw [evalPoly_nodalPoly_eq_zero hmem, mul_zero]
  rw [evalPoly_scalePoly]
  have hne : evalPoly (nodalPoly (nodes.eraseIdx k)) (nodes.getD k 0) ≠ 0 := by
    rw [hgetD]
    exact evalPoly_nodalPoly_ne_zero (forall_mem_eraseIdx_ne hk hdist)
  rw [div_mul_cancel₀ _ hne]

/-- Length bound: the interpolation polynomial has at most as many
coefficients as there are nodes. -/
theorem length_interp {F : Type} [Field F] (nodes vals : List F) :
    (interp nodes vals).length ≤ nodes.length := by
  unfold interp
  have : ∀ l : List Nat, (∀ i ∈ l, i < nodes.length) →
      (l.foldr (fun i acc =>
        polyAdd (scalePoly (vals.getD i 0 /
          evalPoly (nodalPoly (nodes.eraseIdx i)) (nodes.getD i 0))
          (nodalPoly (nodes.eraseIdx i))) acc) []).length ≤ nodes.length := by
    intro l hl
    induction l with
    | nil => simp
    | cons i l ih =>
      simp only [List.foldr_cons, length_polyAdd, length_scalePoly, length_nodalPoly]
      have hi : i < nodes.length := hl i (by simp)
      have hlen : (nodes.eraseIdx i).length = nodes.length - 1 := by
        rw [List.length_eraseIdx]
        simp [hi]
      rw [hlen]
      have := ih (fun j hj => hl j (by simp [hj]))
      omega
  exact this (List.range nodes.length) (fun i hi => List.mem_range.mp hi)

end InterpLemmas

section DivLin

variable {F : Type} [CommRing F]

theorem evalPoly_divLin (c : F) (p : List F) (x : F) :
    evalPoly p x = (x - c) * evalPoly (divLin c p) x + evalPoly p c := by
  induction p with
  | nil => simp [divLin]
  | cons a s ih =>
    cases s with
    | nil => simp [divLin, evalPoly]
    | cons b rest =>
      rw [show divLin c (a :: b :: rest) = evalPoly (b :: rest) c :: divLin c (b :: rest)
        from rfl]
      conv_lhs => rw [evalPoly_cons, ih]
      simp only [evalPoly_cons]
      ring

theorem length_divLin (c : F) (p : List F) : (divLin c p).length = p.length - 1 := by
  induction p with
  | nil => simp [divLin]
  | cons a s ih =>
    cases s with
    | nil => simp [divLin]
    | cons b rest =>
      simp only [divLin, List.length_cons] at *
      omega

theorem coeff_polyNeg (p : List F) (i : Nat) : coeff (polyNeg p) i = -coeff p i := by
  induction p generalizing i with
  | nil => simp [polyNeg]
  | cons a p ih =>
    cases i with
    | zero => simp [polyNeg]
    | succ i => simpa [polyNeg] using ih i

theorem coeff_polySub (p q : List F) (i : Nat) :
    coeff (polySub p q) i = coeff p i - coeff q i := by
  rw [polySub, coeff_polyAdd, coeff_polyNeg, sub_eq_add_neg]

theorem coeff_polyMul_linear (c : F) (s : List F) (i : Nat) :
    coeff (polyMul [-c, 1] s) i =
      -c * coeff s i + (if i = 0 then 0 else coeff s (i - 1)) := by
  have h1 : polyMul [-c, (1 : F)] s = polyAdd (scalePoly (-c) s) (0 :: polyMul [1] s) := rfl
  have h2 : polyMul [(1 : F)] s = polyAdd (scalePoly 1 s) [0] := by
    simp [polyMul, polyAdd]
  rw [h1, h2, coeff_polyAdd, coeff_scalePoly]
  cases i with
  | zero => simp
  | succ i =>
    simp only [coeff_cons_succ, coeff_polyAdd, coeff_scalePoly, one_mul]
    have : coeff ([0] : List F) i = 0 := by
      cases i <;> simp [coeff]
    simp [this]

theorem coeff_divLin_identity (c : F) (p : List F) (i : Nat) :
    coeff p i = coeff (polyMul [-c, 1] (divLin c p)) i +
      (if i = 0 then evalPoly p c else 0) := by
  induction p generalizing i with
  | nil =>
    rw [show divLin c ([] : List F) = [] from rfl, coeff_polyMul_linear]
    simp
  | cons a s ih =>
    cases s with
    | nil =>
      rw [show divLin c [a] = [] from rfl, coeff_polyMul_linear]
      cases i with
      | zero => simp [evalPoly]
      | succ i => simp
    | cons b rest =>
      rw [show divLin c (a :: b :: rest) = evalPoly (b :: rest) c :: divLin c (b :: rest)
        from rfl]
      cases i with
      | zero =>
        rw [coeff_polyMul_linear]
        simp only [coeff_cons_zero, coeff_cons_succ, evalPoly_cons, if_pos,
          reduceIte]
        ring
      | succ i =>
        rw [coeff_polyMul_linear]
        simp only [coeff_cons_succ, if_neg (Nat.succ_ne_zero i), add_zero,
          Nat.add_sub_cancel]
        rw [ih i, coeff_polyMul_linear]
        cases i with
        | zero => simp
        | succ j =>
          simp only [if_neg (Nat.succ_ne_zero j), add_zero, Nat.add_sub_cancel,
            coeff_cons_succ]

end DivLin

section Uniqueness

variable {F : Type} [Field F]

theorem coeff_eq_zero_of_roots :
    ∀ (roots : List F) (p : List F), roots.Pairwise (· ≠ ·) →
      (∀ r ∈ roots, evalPoly p r = 0) → p.length ≤ roots.length →
      ∀ i, coeff p i = 0 := by
  intro roots
  induction roots with
  | nil =>
    intro p _ _ hlen i
    have : p = [] := List.length_eq_zero.mp (Nat.le_zero.mp hlen)
    simp [this]
  | cons r rs ih =>
    intro p hdist hroots hlen i
    cases p with
    | nil => simp
    | cons a s =>
      set q := divLin r (a :: s) with hq
      have hpr : evalPoly (a :: s) r = 0 := hroots r (by simp)
      have hdiv : ∀ x, evalPoly (a :: s) x = (x - r) * evalPoly q x := by
        intro x
        rw [evalPoly_divLin r (a :: s) x, hpr, add_zero]
      have hqroots : ∀ s' ∈ rs, evalPoly q s' = 0 := by
        intro s' hs'
        have h0 : (s' - r) * evalPoly q s' = 0 := by
          rw [← hdiv s']
          exact hroots s' (by simp [hs'])
        have hne : s' - r ≠ 0 := sub_ne_zero.mpr
          (fun hEq => (List.pairwise_cons.mp hdist).1 s' hs' hEq.symm)
        exact (mul_eq_zero.mp h0).resolve_left hne
      have hqlen : q.length ≤ rs.length := by
        rw [hq, length_divLin]
        simp only [List.length_cons] at hlen ⊢
        omega
      have hqz : ∀ j, coeff q j = 0 :=
        ih q (List.pairwise_cons.mp hdist).2 hqroots hqlen
      rw [coeff_divLin_identity r (a :: s) i, coeff_polyMul_linear, hqz, hqz, hpr]
      simp

/-- Uniqueness of interpolation at the coefficient level: two coefficient
lists no longer than the node list that agree (as functions) on all the
pairwise-distinct nodes have identical coefficients. -/
theorem coeff_eq_of_eval_eq_on_nodes (nodes p q : List F)
    (hdist : nodes.Pairwise (· ≠ ·))
    (hlp : p.length ≤ nodes.length) (hlq : q.length ≤ nodes.length)
    (heval : ∀ r ∈ nodes, evalPoly p r = evalPoly q r) :
    ∀ i, coeff p i = coeff q i := by
  intro i
  have hdz : ∀ j, coeff (polySub p q) j = 0 := by
    refine coeff_eq_zero_of_roots nodes (polySub p q) hdist ?_ ?_
    · intro r hr
      rw [evalPoly_polySub, heval r hr, sub_self]
    · have := length_polyAdd p (polyNeg q)
      rw [polySub, this]
      simp only [polyNeg, List.length_map]
      omega
  have := hdz i
  rw [coeff_polySub] at this
  exact sub_eq_zero.mp this

end Uniqueness

theorem length_resize {α : Type} (l : List α) (n : Nat) (pad : α) :
    (resize l n pad).length = n := by
  simp only [resize, List.length_append, List.length_take, List.length_replicate]
  omega

theorem getD_resize_lt {α : Type} (l : List α) (n : Nat) (pad : α) (i : Nat)
    (hi : i < l.length) (hin : i < n) :
    (resize l n pad).getD i pad = l.getD i pad := by
  have h1 : i < (l.take n).length := by
    simp only [List.length_take]
    omega
  rw [resize, List.getD_append _ _ _ i h1, List.getD_eq_getElem?_getD,
    List.getElem?_take, if_pos hin, ← List.getD_eq_getElem?_getD]

theorem getD_resize_ge {α : Type} (l : List α) (n : Nat) (pad : α) (i : Nat)
    (hi : l.length ≤ i) (hin : i < n) :
    (resize l n pad).getD i pad = pad := by
  have h : (l.take n).length ≤ i := by
    simp only [List.length_take]
    omega
  rw [resize, List.getD_append_right _ _ _ i h, List.getD_eq_getElem?_getD,
    List.getElem?_replicate, if_pos (by simp only [List.length_take]; omega),
    Option.getD_some]

/-! ### Evaluation lemmas for the amplified-table pipeline -/

section TableLemmas

variable {F : Type} [Field F]

theorem zipWith_map_same {α β : Type} (f : β → β → β) (g h : α → β) (l : List α) :
    List.zipWith f (l.map g) (l.map h) = l.map (fun x => f (g x) (h x)) := by
  induction l with
  | nil => rfl
  | cons a l ih => simp [ih]

/-- Evaluating the interpolation of the value table of a function back at
one of the (pairwise-distinct) nodes recovers the function value. -/
theorem evalPoly_interp_map_of_mem (nodes : List F) (f : F → F)
    (hdist : nodes.Pairwise (· ≠ ·)) {x : F} (hx : x ∈ nodes) :
    evalPoly (interp nodes (nodes.map f)) x = f x := by
  rw [List.mem_iff_getElem] at hx
  rcases hx with ⟨k, hk, rfl⟩
  have h1 : nodes[k] = nodes.getD k 0 := (List.getD_eq_getElem nodes 0 hk).symm
  rw [h1, evalPoly_interp_at_node nodes (nodes.map f) hdist k hk]
  rw [List.getD_eq_getElem?_getD, List.getElem?_map, ← h1]
  simp [List.getElem?_eq_getElem hk]

theorem evalPoly_interp_of_forall_zero (nodes vals : List F)
    (h : ∀ v ∈ vals, v = 0) (x : F) :
    evalPoly (interp nodes vals) x = 0 := by
  unfold interp
  rw [evalPoly_foldr_polyAdd]
  refine List.sum_eq_zero ?_
  intro v hv
  rcases List.mem_map.mp hv with ⟨i, hi, rfl⟩
  rw [evalPoly_scalePoly]
  rcases Nat.lt_or_ge i vals.length with hlt | hge
  · rw [List.getD_eq_getElem vals 0 hlt, h vals[i] (List.getElem_mem hlt), zero_div,
      zero_mul]
  · rw [List.getD_eq_default vals 0 hge, zero_div, zero_mul]

theorem coeff_interp_of_forall_zero (nodes vals : List F)
    (h : ∀ v ∈ vals, v = 0) (i : Nat) :
    coeff (interp nodes vals) i = 0 := by
  unfold interp
  have : ∀ l : List Nat,
      coeff ((l.foldr (fun j acc =>
        polyAdd (scalePoly (vals.getD j 0 /
          evalPoly (nodalPoly (nodes.eraseIdx j)) (nodes.getD j 0))
          (nodalPoly (nodes.eraseIdx j))) acc) [])) i = 0 := by
    intro l
    induction l with
    | nil => simp
    | cons j l ih =>
      rw [List.foldr_cons, coeff_polyAdd, ih, coeff_scalePoly]
      have hz : vals.getD j 0 = 0 := by
        rcases Nat.lt_or_ge j vals.length with hlt | hge
        · rw [List.getD_eq_getElem vals 0 hlt]
          exact h _ (List.getElem_mem hlt)
        · exact List.getD_eq_default vals 0 hge
      rw [hz, zero_div, zero_mul, zero_add]
  exact this (List.range nodes.length)

theorem length_polyMul_le (p q : List F) (hq : 1 ≤ q.length) :
    (polyMul p q).length ≤ p.length + q.length - 1 := by
  induction p with
  | nil => simp [polyMul]
  | cons a p ih =>
    simp only [polyMul, length_polyAdd, length_scalePoly, List.length_cons]
    omega

end TableLemmas

/-! ### Properties of the booleanity constraint -/

section Booleanity

variable {F : Type} [Field F]

/-- The booleanity constraint polynomial is the interpolation, over the
amplified domain, of the value table of `z ↦ b(z)·(1 - b(z))` where `b`
interpolates the bitmask register. -/
theorem booleanity_poly_eq_interp_table (d : Domains F) (bvals : List F)
    (pks acc sh : List F × List F) :
    Constraints.compute_bitmask_booleanity_constraint_polynomial
      (Registers.new_unchecked d bvals pks acc sh) =
    interp d.bigNodes (d.bigNodes.map (fun z =>
      evalPoly (interp d.baseNodes bvals) z *
        (1 - evalPoly (interp d.baseNodes bvals) z))) := by
  unfold Constraints.compute_bitmask_booleanity_constraint_polynomial
  show interp d.bigNodes
      (List.zipWith (· * ·) (d.amplify bvals)
        (List.zipWith (· - ·) (d.constant_4x 1) (d.amplify bvals))) = _
  rw [Domains.amplify, Domains.constant_4x, zipWith_map_same, zipWith_map_same]

theorem booleanity_poly_eval_at_big (d : Domains F) (hbig : d.bigNodes.Pairwise (· ≠ ·))
    (bvals : List F) (pks acc sh : List F × List F) {x : F} (hx : x ∈ d.bigNodes) :
    evalPoly (Constraints.compute_bitmask_booleanity_constraint_polynomial
      (Registers.new_unchecked d bvals pks acc sh)) x =
      evalPoly (interp d.baseNodes bvals) x *
        (1 - evalPoly (interp d.baseNodes bvals) x) := by
  rw [booleanity_poly_eq_interp_table]
  exact evalPoly_interp_map_of_mem d.bigNodes _ hbig hx

theorem booleanity_poly_coeff_bound (d : Domains F) (hwf : d.wf) (hn : 1 ≤ d.size)
    (bvals : List F) (pks acc sh : List F × List F)
    {i : Nat} (hi : 2 * (d.size - 1) + 1 ≤ i) :
    coeff (Constraints.compute_bitmask_booleanity_constraint_polynomial
      (Registers.new_unchecked d bvals pks acc sh)) i = 0 := by
  obtain ⟨hbase, hbig, hsub, hlen4⟩ := hwf
  set bP := interp d.baseNodes bvals with hbP
  set q := polyMul bP (polySub [1] bP) with hq
  have hlenbP : bP.length ≤ d.size := length_interp d.baseNodes bvals
  have hlensub : (polySub [1] bP).length ≤ d.size := by
    rw [polySub, length_polyAdd]
    simp only [polyNeg, List.length_map, List.length_singleton]
    omega
  have hlenq : q.length ≤ 2 * (d.size - 1) + 1 := by
    have h1 : 1 ≤ (polySub [1] bP).length := by
      rw [polySub, length_polyAdd]
      simp [polyNeg]
    have h2 := length_polyMul_le bP (polySub [1] bP) h1
    rw [← hq] at h2
    omega
  have hcoeff : ∀ j, coeff (Constraints.compute_bitmask_booleanity_constraint_polynomial
      (Registers.new_unchecked d bvals pks acc sh)) j = coeff q j := by
    rw [booleanity_poly_eq_interp_table]
    refine coeff_eq_of_eval_eq_on_nodes d.bigNodes _ q hbig ?_ ?_ ?_
    · exact length_interp _ _
    · rw [hlen4]
      unfold Domains.size at hlenq hn
      omega
    · intro r hr
      rw [evalPoly_interp_map_of_mem d.bigNodes _ hbig hr, hq, evalPoly_polyMul,
        evalPoly_polySub]
      simp [evalPoly]
  rw [hcoeff i]
  exact coeff_eq_zero_of_length_le (le_trans hlenq hi)

end Booleanity

section BooleanityClaim

variable {F : Type} [Field F]

/-- C5 (amended): over a well-formed domain pair with base size `n ≥ 1`, for
every register whose entries are all 0 or 1 the bitmask-booleanity constraint
polynomial computed by `compute_bitmask_booleanity_constraint_polynomial` has
degree at most `2(n−1)` (every coefficient above index `2(n−1)` vanishes) and
evaluates to zero at every point of the base domain; and for every register
whose entry at a position `k` is a field value that is neither 0 nor 1, the
constraint polynomial is nonzero at the `k`-th base-domain point.  (The
original claim's "degree exactly `2(n−1)`" fails, e.g. for the all-zero
register; see the counterexample.) -/
theorem booleanity_constraint_properties (d : Domains F) (hwf : d.wf)
    (hn : 1 ≤ d.size) (pks acc sh : List F × List F) :
    (∀ bvals : List F, (∀ v ∈ bvals, v = 0 ∨ v = 1) →
      (∀ i, 2 * (d.size - 1) + 1 ≤ i →
        coeff (Constraints.compute_bitmask_booleanity_constraint_polynomial
          (Registers.new_unchecked d bvals pks acc sh)) i = 0) ∧
      (∀ k, k < d.size →
        evalPoly (Constraints.compute_bitmask_booleanity_constraint_polynomial
          (Registers.new_unchecked d bvals pks acc sh)) (d.baseNodes.getD k 0) = 0)) ∧
    (∀ bvals : List F, ∀ k, k < d.size →
      bvals.getD k 0 ≠ 0 → bvals.getD k 0 ≠ 1 →
      evalPoly (Constraints.compute_bitmask_booleanity_constraint_polynomial
        (Registers.new_unchecked d bvals pks acc sh)) (d.baseNodes.getD k 0) ≠ 0) := by
  have hbase := hwf.1
  have hbig := hwf.2.1
  have hsub := hwf.2.2.1
  have hmem : ∀ k, k < d.size → d.baseNodes.getD k 0 ∈ d.bigNodes := by
    intro k hk
    refine hsub _ ?_
    rw [List.getD_eq_getElem d.baseNodes 0 hk]
    exact List.getElem_mem hk
  have heval : ∀ (bvals : List F) (k : Nat), k < d.size →
      evalPoly (Constraints.compute_bitmask_booleanity_constraint_polynomial
        (Registers.new_unchecked d bvals pks acc sh)) (d.baseNodes.getD k 0) =
      bvals.getD k 0 * (1 - bvals.getD k 0) := by
    intro bvals k hk
    rw [booleanity_poly_eval_at_big d hbig bvals pks acc sh (hmem k hk),
      evalPoly_interp_at_node d.baseNodes bvals hbase k hk]
  refine ⟨?_, ?_⟩
  · intro bvals hbool
    refine ⟨fun i hi => booleanity_poly_coeff_bound d hwf hn bvals pks acc sh hi, ?_⟩
    intro k hk
    rw [heval bvals k hk]
    have : bvals.getD k 0 = 0 ∨ bvals.getD k 0 = 1 := by
      rcases Nat.lt_or_ge k bvals.length with hlt | hge
      · rw [List.getD_eq_getElem bvals 0 hlt]
        exact hbool _ (List.getElem_mem hlt)
      · left
        exact List.getD_eq_default bvals 0 hge
    rcases this with h | h <;> rw [h] <;> ring
  · intro bvals k hk h0 h1
    rw [heval bvals k hk]
    exact mul_ne_zero h0 (sub_ne_zero.mpr (fun h => h1 h.symm))

end BooleanityClaim

section CondAdd

variable {F : Type} [Field F]

theorem spec_constraints_vanish_add (x1 y1 x2 y2 : F) (hne : x2 ≠ x1) :
    specC1 1 x1 y1 x2 y2 (ecAddX x1 y1 x2 y2) (ecAddY x1 y1 x2 y2) = 0 ∧
    specC2 1 x1 y1 x2 y2 (ecAddX x1 y1 x2 y2) (ecAddY x1 y1 x2 y2) = 0 := by
  have hsub : x2 - x1 ≠ 0 := sub_ne_zero.mpr hne
  constructor
  · unfold specC1 ecAddX
    field_simp
    ring
  · unfold specC2 ecAddY ecAddX
    field_simp
    ring

theorem spec_constraints_vanish_noop (x1 y1 x2 y2 : F) :
    specC1 0 x1 y1 x2 y2 x1 y1 = 0 ∧ specC2 0 x1 y1 x2 y2 x1 y1 = 0 := by
  constructor <;> simp [specC1, specC2]

/-- The code's conditional-addition computation (pointwise operations on
the amplified tables, then interpolation) produces exactly the
interpolations of the spec's formulas. -/
theorem cond_constraint_polys_eq_spec (d : Domains F) (bits : List Bool)
    (pks : List (F × F)) (acc : List F × List F) :
    Constraints.compute_conditional_affine_addition_constraint_polynomials
      (Registers.new d bits pks acc) = condConstraintSpecPolys d bits pks acc := by
  simp only [Constraints.compute_conditional_affine_addition_constraint_polynomials,
    Registers.new, Registers.new_unchecked, condConstraintSpecPolys,
    Domains.amplify, Domains.constant_4x, zipWith_map_same]
  refine Prod.ext ?_ ?_ <;>
    simp only <;>
    refine congrArg (interp d.bigNodes) (List.map_congr_left ?_) <;>
    intro z hz <;>
    simp only [specC1, specC2] <;>
    ring

theorem getD_rotate_one {α : Type} (l : List α) (d : α) (i : Nat)
    (hi : i + 1 < l.length) :
    (l.rotate 1).getD i d = l.getD (i + 1) d := by
  have hlen : i < (l.rotate 1).length := by
    rw [List.length_rotate]
    omega
  rw [List.getD_eq_getElem _ _ hlen, List.getElem_rotate]
  simp only [Nat.mod_eq_of_lt hi]
  rw [← List.getD_eq_getElem l d hi]

theorem getD_resize_map_bool (bits : List Bool) (n i : Nat) (hi : i < n) :
    (resize (bits.map fun b => if b then (1 : F) else 0) n 0).getD i 0 = 0 ∨
    (resize (bits.map fun b => if b then (1 : F) else 0) n 0).getD i 0 = 1 := by
  rcases Nat.lt_or_ge i (bits.map fun b => if b then (1 : F) else 0).length with hlt | hge
  · rw [getD_resize_lt _ _ _ _ hlt hi, List.getD_eq_getElem _ _ hlt, List.getElem_map]
    have hib : i < bits.length := by simpa using hlt
    cases hb : bits[i] <;> simp
  · rw [getD_resize_ge _ _ _ _ hge hi]
    left
    rfl

theorem getD_map_fst (pks : List (F × F)) (i : Nat) (hi : i < pks.length) :
    (pks.map Prod.fst).getD i 0 = (pks.getD i (0, 0)).1 := by
  have hi' : i < (pks.map Prod.fst).length := by simpa using hi
  rw [List.getD_eq_getElem _ _ hi', List.getElem_map, List.getD_eq_getElem _ _ hi]

theorem getD_map_snd (pks : List (F × F)) (i : Nat) (hi : i < pks.length) :
    (pks.map Prod.snd).getD i 0 = (pks.getD i (0, 0)).2 := by
  have hi' : i < (pks.map Prod.snd).length := by simpa using hi
  rw [List.getD_eq_getElem _ _ hi', List.getElem_map, List.getD_eq_getElem _ _ hi]

/-- C2: the two constraint polynomials returned by
`compute_conditional_affine_addition_constraint_polynomials` are exactly the
interpolations, over the amplified domain, of the spec's formulas
`C1 = b·[(x1−x2)²·(x1+x2+x3) − (y2−y1)²] + (1−b)·(y3−y1)` and
`C2 = b·[(x1−x2)·(y3+y1) − (y2−y1)·(x3−x1)] + (1−b)·(x3−x1)`, where the
shifted registers are the accumulator registers rotated left by one domain
position with wraparound (as built by `Registers::new`); and whenever the
accumulator sequence honestly follows the accumulation rule (bit 1: affine
chord sum of the accumulator and the key; bit 0: unchanged), both
polynomials vanish at every base-domain point except possibly the last
(wrap) slot. -/
theorem conditional_affine_addition_constraints (d : Domains F) (hwf : d.wf)
    (bits : List Bool) (pks : List (F × F)) (acc : List F × List F)
    (hpks : pks.length = d.size) (hacc1 : acc.1.length = d.size)
    (hacc2 : acc.2.length = d.size) :
    Constraints.compute_conditional_affine_addition_constraint_polynomials
        (Registers.new d bits pks acc) = condConstraintSpecPolys d bits pks acc ∧
    ((∀ i, i + 1 < d.size →
        ((resize (bits.map fun b => if b then (1 : F) else 0) d.size 0).getD i 0 = 1 →
          (pks.getD i (0, 0)).1 ≠ acc.1.getD i 0 ∧
          acc.1.getD (i + 1) 0 = ecAddX (acc.1.getD i 0) (acc.2.getD i 0)
            (pks.getD i (0, 0)).1 (pks.getD i (0, 0)).2 ∧
          acc.2.getD (i + 1) 0 = ecAddY (acc.1.getD i 0) (acc.2.getD i 0)
            (pks.getD i (0, 0)).1 (pks.getD i (0, 0)).2) ∧
        ((resize (bits.map fun b => if b then (1 : F) else 0) d.size 0).getD i 0 = 0 →
          acc.1.getD (i + 1) 0 = acc.1.getD i 0 ∧
          acc.2.getD (i + 1) 0 = acc.2.getD i 0)) →
      ∀ i, i + 1 < d.size →
        evalPoly (Constraints.compute_conditional_affine_addition_constraint_polynomials
          (Registers.new d bits pks acc)).1 (d.baseNodes.getD i 0) = 0 ∧
        evalPoly (Constraints.compute_conditional_affine_addition_constraint_polynomials
          (Registers.new d bits pks acc)).2 (d.baseNodes.getD i 0) = 0) := by
  obtain ⟨hbase, hbig, hsubm, hlen4⟩ := hwf
  refine ⟨cond_constraint_polys_eq_spec d bits pks acc, ?_⟩
  intro honest i hi
  have hin : i < d.size := by omega
  have hmem : d.baseNodes.getD i 0 ∈ d.bigNodes := by
    refine hsubm _ ?_
    rw [List.getD_eq_getElem d.baseNodes 0 hin]
    exact List.getElem_mem hin
  have eAll : ∀ vals : List F,
      evalPoly (interp d.baseNodes vals) (d.baseNodes.getD i 0) = vals.getD i 0 :=
    fun vals => evalPoly_interp_at_node _ _ hbase i hin
  rw [cond_constraint_polys_eq_spec d bits pks acc]
  simp only [condConstraintSpecPolys]
  rw [evalPoly_interp_map_of_mem d.bigNodes _ hbig hmem,
    evalPoly_interp_map_of_mem d.bigNodes _ hbig hmem]
  simp only [eAll]
  rw [getD_rotate_one acc.1 0 i (by omega), getD_rotate_one acc.2 0 i (by omega),
    getD_map_fst pks i (by omega), getD_map_snd pks i (by omega)]
  rcases getD_resize_map_bool (F := F) bits d.size i hin with hv | hv
  · obtain ⟨h1, h2⟩ := (honest i hi).2 hv
    rw [hv, h1, h2]
    exact spec_constraints_vanish_noop _ _ _ _
  · obtain ⟨hne, hx3, hy3⟩ := (honest i hi).1 hv
    rw [hv, hx3, hy3]
    exact spec_constraints_vanish_add _ _ _ _ hne

end CondAdd

section KeysetLemmas

variable {P F : Type} [Field F]

theorem zip_filter_sum [AddCommMonoid P] :
    ∀ (bm : List Bool) (ks : List P),
      (((bm.zip ks).filter (fun bp => bp.1)).map (fun bp => bp.2)).sum =
        ∑ i ∈ Finset.range (min bm.length ks.length),
          (if bm.getD i false then ks.getD i 0 else 0) := by
  intro bm
  induction bm with
  | nil => intro ks; simp
  | cons b bm ih =>
    intro ks
    cases ks with
    | nil => simp
    | cons k ks =>
      have hmin : min (b :: bm).length (k :: ks).length =
          (min bm.length ks.length) + 1 := by
        simp only [List.length_cons]
        omega
      rw [hmin, Finset.sum_range_succ']
      simp only [List.zip_cons_cons, List.getD_cons_succ, List.getD_cons_zero]
      cases b with
      | false => simp [List.filter_cons, ih ks]
      | true => simp [List.filter_cons, ih ks, add_comm]

end KeysetLemmas

theorem getD_resize_in_padding {α : Type} (l : List α) (n : Nat) (pad dflt : α)
    (i : Nat) (hge : l.length ≤ i) (hin : i < n) :
    (resize l n pad).getD i dflt = pad := by
  have h1 : i < (resize l n pad).length := by
    rw [length_resize]
    exact hin
  have h2 := getD_resize_ge l n pad i hge hin
  rw [List.getD_eq_getElem _ _ h1] at h2 ⊢
  exact h2

/-- C6: `Keyset::new` on `m` keys selects the domain size
`n = nextPow2(m+1)`, which is at least `m+1` and is the smallest power of
two with that property; the padded key vector — and hence each padded
coordinate vector — has length exactly `n`; and both interpolating
coordinate polynomials have degree strictly below `n` (every coefficient
at index `n` or above vanishes). -/
theorem keyset_new_properties {P F : Type} [Field F] (nodesOf : Nat → List F)
    (coords : P → F × F) (h2c : List Nat → P) (keys : List P)
    (hnodes : (nodesOf (nextPow2 (keys.length + 1))).length =
      nextPow2 (keys.length + 1)) :
    (Keyset.new nodesOf coords h2c keys).domainSize = nextPow2 (keys.length + 1) ∧
    keys.length + 1 ≤ nextPow2 (keys.length + 1) ∧
    (∀ j, keys.length + 1 ≤ 2 ^ j → nextPow2 (keys.length + 1) ≤ 2 ^ j) ∧
    (Keyset.new nodesOf coords h2c keys).padded_pks.length =
      nextPow2 (keys.length + 1) ∧
    ((Keyset.new nodesOf coords h2c keys).padded_pks.map
      (fun p => (coords p).1)).length = nextPow2 (keys.length + 1) ∧
    (∀ i, nextPow2 (keys.length + 1) ≤ i →
      coeff (Keyset.new nodesOf coords h2c keys).pks_polys.1 i = 0 ∧
      coeff (Keyset.new nodesOf coords h2c keys).pks_polys.2 i = 0) := by
  refine ⟨rfl, Nat.le_pow_clog one_lt_two _, ?_, ?_, ?_, ?_⟩
  · intro j hj
    exact Nat.pow_le_pow_right (by norm_num)
      ((Nat.le_pow_iff_clog_le one_lt_two).mp hj)
  · simp [Keyset.new, length_resize]
  · simp [Keyset.new, length_resize]
  · intro i hi
    constructor <;>
    · simp only [Keyset.new]
      refine coeff_eq_zero_of_length_le (le_trans (le_trans (length_interp _ _) ?_) hi)
      rw [hnodes]

/-- C10: `Keyset::new` fills every padding slot — including the last
domain slot — with one and the same fixed point
`hash_to_curve(b"apk-proofs")`, a constant independent of the input keys,
and stores the original unpadded key vector unchanged in the `pks` field,
so `Keyset::size` always returns the real (unpadded) key count. -/
theorem keyset_new_padding {P F : Type} [Field F] (nodesOf : Nat → List F)
    (coords : P → F × F) (h2c : List Nat → P) (keys : List P) :
    (Keyset.new nodesOf coords h2c keys).pks = keys ∧
    (Keyset.new nodesOf coords h2c keys).size = keys.length ∧
    (∀ (i : Nat) (dflt : P), keys.length ≤ i → i < nextPow2 (keys.length + 1) →
      (Keyset.new nodesOf coords h2c keys).padded_pks.getD i dflt =
        h2c apkProofsLabel) ∧
    (∀ dflt : P, (Keyset.new nodesOf coords h2c keys).padded_pks.getD
      (nextPow2 (keys.length + 1) - 1) dflt = h2c apkProofsLabel) := by
  have hle : keys.length + 1 ≤ nextPow2 (keys.length + 1) :=
    Nat.le_pow_clog one_lt_two _
  refine ⟨rfl, rfl, ?_, ?_⟩
  · intro i dflt hge hin
    simp only [Keyset.new]
    exact getD_resize_in_padding keys _ _ dflt i hge hin
  · intro dflt
    simp only [Keyset.new]
    exact getD_resize_in_padding keys _ _ dflt _ (by omega) (by omega)

/-- C7: for every bitmask whose length equals the number of real
(unpadded) keys, `Keyset::aggregate` returns the sum of exactly those
unpadded keys whose bit is set; the padding keys never contribute. -/
theorem keyset_aggregate_selected_sum {P F : Type} [Field F] [AddCommMonoid P]
    (nodesOf : Nat → List F) (coords : P → F × F) (h2c : List Nat → P)
    (keys : List P) (bm : List Bool) (hlen : bm.length = keys.length) :
    (Keyset.new nodesOf coords h2c keys).aggregate bm =
      ∑ i ∈ Finset.range keys.length,
        (if bm.getD i false then keys.getD i 0 else 0) := by
  have hpks : (Keyset.new nodesOf coords h2c keys).pks = keys := rfl
  rw [Keyset.aggregate, hpks, zip_filter_sum, hlen, Nat.min_self]

/-- Witness for C6 at a concrete single-key keyset over `ZMod 17`. -/
theorem keyset_new_properties_witness :
    (Keyset.new (fun k => List.replicate k (0 : ZMod 17)) (fun z => (z, z))
      (fun _ => (7 : ZMod 17)) [5]).domainSize = nextPow2 2 ∧
    1 + 1 ≤ nextPow2 2 ∧
    (∀ j, 1 + 1 ≤ 2 ^ j → nextPow2 2 ≤ 2 ^ j) ∧
    (Keyset.new (fun k => List.replicate k (0 : ZMod 17)) (fun z => (z, z))
      (fun _ => (7 : ZMod 17)) [5]).padded_pks.length = nextPow2 2 ∧
    ((Keyset.new (fun k => List.replicate k (0 : ZMod 17)) (fun z => (z, z))
      (fun _ => (7 : ZMod 17)) [5]).padded_pks.map (fun p => ((p, p) : _ × _).1)).length
        = nextPow2 2 ∧
    (∀ i, nextPow2 2 ≤ i →
      coeff (Keyset.new (fun k => List.replicate k (0 : ZMod 17)) (fun z => (z, z))
        (fun _ => (7 : ZMod 17)) [5]).pks_polys.1 i = 0 ∧
      coeff (Keyset.new (fun k => List.replicate k (0 : ZMod 17)) (fun z => (z, z))
        (fun _ => (7 : ZMod 17)) [5]).pks_polys.2 i = 0) :=
  keyset_new_properties (fun k => List.replicate k (0 : ZMod 17)) (fun z => (z, z))
    (fun _ => (7 : ZMod 17)) [5] (by simp)

/-- Witness for C7 at a concrete two-key keyset with bitmask `[true, false]`. -/
theorem keyset_aggregate_selected_sum_witness :
    (Keyset.new (fun k => List.replicate k (0 : ZMod 17)) (fun z => (z, z))
      (fun _ => (7 : ZMod 17)) [(2 : ZMod 17), 5]).aggregate [true, false] =
      ∑ i ∈ Finset.range 2,
        (if ([true, false].getD i false) then ([(2 : ZMod 17), 5].getD i 0) else 0) :=
  keyset_aggregate_selected_sum _ _ _ [(2 : ZMod 17), 5] [true, false] (by decide)

/-- Witness for C10: the padding of a concrete one-key keyset, at the last
domain slot, is the `hash_to_curve` constant. -/
theorem keyset_new_padding_witness :
    (Keyset.new (fun k => List.replicate k (0 : ZMod 17)) (fun z => (z, z))
      (fun _ => (7 : ZMod 17)) [(5 : ZMod 17)]).padded_pks.getD
        (nextPow2 (List.length [(5 : ZMod 17)] + 1) - 1) 0 = 7 :=
  (keyset_new_padding (fun k => List.replicate k (0 : ZMod 17)) (fun z => (z, z))
    (fun _ => (7 : ZMod 17)) [(5 : ZMod 17)]).2.2.2 0

theorem countOnes_eq_hammingWeight (bm : List Bool) :
    countOnes bm = hammingWeight bm := by
  induction bm with
  | nil => rfl
  | cons b bm ih =>
    cases b <;> simp [countOnes, hammingWeight, List.count_cons] at * <;> omega

/-- C3 (amended): `Prover::prove` rejects — refusing to produce a proof —
exactly when the bitmask length differs from the keyset size or the
bitmask has no set bits (`count_ones == 0`); for every other input,
including a nonzero bitmask whose selected subset sums to the group
identity, proving succeeds.  (The original claim's "rejects whenever the
subset sums to the identity" is refuted by the counterexample.) -/
theorem prove_rejects_iff {P F : Type} [Field F] [AddCommMonoid P] {PI : Type}
    (pr : Prover P F) (newPI : P → List Bool → PI) (encPI : PI → List Nat)
    (commitEnc : List Bool → List Nat) (round2enc : Nat → List Nat)
    (bm : List Bool) :
    (∃ res, pr.prove newPI encPI commitEnc round2enc bm = Except.ok res) ↔
      (bm.length = pr.keyset.size ∧ 0 < countOnes bm) := by
  unfold Prover.prove
  by_cases h1 : bm.length ≠ pr.keyset.size
  · rw [if_pos h1]
    simp [h1]
  · rw [if_neg h1]
    by_cases h2 : ¬ 0 < countOnes bm
    · rw [if_pos h2]
      simp
      omega
    · rw [if_neg h2]
      simp at h1 h2
      simp [h1, h2]
      omega

/-- Counterexample for C3 as stated: the bitmask `[true, true]` over the
keyset `{P, -P}` selects a subset summing to the group identity, yet
`prove` does not reject it (both `assert!`s pass since the lengths match
and `count_ones = 2 > 0`). -/
theorem prove_identity_sum_not_rejected_counterexample :
    proverZ.keyset.aggregate [true, true] = 0 ∧
    0 < countOnes [true, true] ∧
    ∃ res, proverZ.prove AccountablePublicInput.new (fun _ => []) (fun _ => [])
      (fun _ => []) [true, true] = Except.ok res := by
  refine ⟨by decide, by decide, ?_⟩
  rw [Prover.prove, if_neg (by decide), if_neg (by decide)]
  exact ⟨_, rfl⟩

/-- C4: for every keyset, `prove` on the all-zero bitmask of matching
length rejects at input validation (the second `assert!`), before the
aggregate, the registers or any commitment are computed, producing an
error instead of a proof object; more generally every matching-length
bitmask with no set bits is so rejected. -/
theorem prove_all_zero_bitmask_rejected {P F : Type} [Field F] [AddCommMonoid P]
    {PI : Type} (pr : Prover P F) (newPI : P → List Bool → PI)
    (encPI : PI → List Nat) (commitEnc : List Bool → List Nat)
    (round2enc : Nat → List Nat) :
    pr.prove newPI encPI commitEnc round2enc
      (List.replicate pr.keyset.size false) = Except.error ProverError.emptyBitmask ∧
    (∀ bm : List Bool, bm.length = pr.keyset.size → countOnes bm = 0 →
      pr.prove newPI encPI commitEnc round2enc bm =
        Except.error ProverError.emptyBitmask) := by
  constructor
  · rw [Prover.prove, if_neg (by simp), if_pos (by simp [countOnes])]
  · intro bm hlen hcnt
    rw [Prover.prove, if_neg (by omega), if_pos (by omega)]

/-- Witness for C3 (amended) at the concrete prover: the equivalence
instantiated at a valid bitmask. -/
theorem prove_rejects_iff_witness :
    (∃ res, proverZ.prove AccountablePublicInput.new (fun _ => []) (fun _ => [])
        (fun _ => []) [true, false] = Except.ok res) ↔
      ([true, false].length = proverZ.keyset.size ∧ 0 < countOnes [true, false]) :=
  prove_rejects_iff proverZ AccountablePublicInput.new (fun _ => []) (fun _ => [])
    (fun _ => []) [true, false]

/-- Witness for C4 at the concrete prover: the all-zero bitmask of
matching length is rejected with `emptyBitmask`. -/
theorem prove_all_zero_bitmask_rejected_witness :
    proverZ.prove AccountablePublicInput.new (fun _ => []) (fun _ => [])
      (fun _ => []) (List.replicate proverZ.keyset.size false) =
        Except.error ProverError.emptyBitmask :=
  (prove_all_zero_bitmask_rejected proverZ AccountablePublicInput.new (fun _ => [])
    (fun _ => []) (fun _ => [])).1

/-- C8: the prover is deterministic — equal prover states and equal
bitmasks yield bit-identical results, in particular the identical
Fiat–Shamir challenge sequence and the identical (proof, public input)
pair. -/
theorem prove_deterministic {P F : Type} [Field F] [AddCommMonoid P] {PI : Type}
    (pr₁ pr₂ : Prover P F) (newPI : P → List Bool → PI) (encPI : PI → List Nat)
    (commitEnc : List Bool → List Nat) (round2enc : Nat → List Nat)
    (bm₁ bm₂ : List Bool) (hpr : pr₁ = pr₂) (hbm : bm₁ = bm₂) :
    pr₁.prove newPI encPI commitEnc round2enc bm₁ =
      pr₂.prove newPI encPI commitEnc round2enc bm₂ ∧
    (pr₁.prove newPI encPI commitEnc round2enc bm₁).toOption.map
        (fun x => x.1.challenges) =
      (pr₂.prove newPI encPI commitEnc round2enc bm₂).toOption.map
        (fun x => x.1.challenges) := by
  subst hpr
  subst hbm
  exact ⟨rfl, rfl⟩

/-- Witness for C8 at the concrete prover and bitmask `[true, false]`. -/
theorem prove_deterministic_witness :
    proverZ.prove AccountablePublicInput.new (fun _ => []) (fun _ => [])
        (fun _ => []) [true, false] =
      proverZ.prove AccountablePublicInput.new (fun _ => []) (fun _ => [])
        (fun _ => []) [true, false] ∧
    (proverZ.prove AccountablePublicInput.new (fun _ => []) (fun _ => [])
        (fun _ => []) [true, false]).toOption.map (fun x => x.1.challenges) =
      (proverZ.prove AccountablePublicInput.new (fun _ => []) (fun _ => [])
        (fun _ => []) [true, false]).toOption.map (fun x => x.1.challenges) :=
  prove_deterministic proverZ proverZ AccountablePublicInput.new (fun _ => [])
    (fun _ => []) (fun _ => []) [true, false] [true, false] rfl rfl

/-- C9: on the same keyset and the same valid bitmask, the plain, packed
and counting provers all embed the identical aggregate key into their
public inputs, and the counting scheme's disclosed count is the Hamming
weight of the bitmask. -/
theorem schemes_agree_on_apk_and_count {P F : Type} [Field F] [AddCommMonoid P]
    (pr : Prover P F) (encA : AccountablePublicInput P → List Nat)
    (encC : CountingPublicInput P → List Nat) (commitEnc : List Bool → List Nat)
    (round2enc : Nat → List Nat) (bm : List Bool)
    (hlen : bm.length = pr.keyset.size) (hcnt : 0 < countOnes bm) :
    (provedPI (pr.prove_simple encA commitEnc bm)).map
        (fun pi => pi.apk) = some (pr.keyset.aggregate bm) ∧
    (provedPI (pr.prove_packed encA commitEnc round2enc bm)).map
        (fun pi => pi.apk) = some (pr.keyset.aggregate bm) ∧
    (provedPI (pr.prove_counting encC commitEnc bm)).map
        (fun pi => pi.apk) = some (pr.keyset.aggregate bm) ∧
    (provedPI (pr.prove_counting encC commitEnc bm)).map
        (fun pi => pi.count) = some (hammingWeight bm) := by
  have h1 : ¬ bm.length ≠ pr.keyset.size := not_ne_iff.mpr hlen
  have h2 : ¬ ¬ 0 < countOnes bm := not_not_intro hcnt
  unfold Prover.prove_simple Prover.prove_packed Prover.prove_counting Prover.prove
  simp only [if_neg h1, if_neg h2]
  simp [provedPI, AccountablePublicInput.new, CountingPublicInput.new,
    countOnes_eq_hammingWeight, Except.toOption]

/-- Witness for C9 at the concrete prover and bitmask `[true, false]`. -/
theorem schemes_agree_on_apk_and_count_witness :
    (provedPI (proverZ.prove_simple (fun _ => []) (fun _ => []) [true, false])).map
        (fun pi => pi.apk) = some (proverZ.keyset.aggregate [true, false]) ∧
    (provedPI (proverZ.prove_packed (fun _ => []) (fun _ => []) (fun _ => [])
        [true, false])).map
        (fun pi => pi.apk) = some (proverZ.keyset.aggregate [true, false]) ∧
    (provedPI (proverZ.prove_counting (fun _ => []) (fun _ => []) [true, false])).map
        (fun pi => pi.apk) = some (proverZ.keyset.aggregate [true, false]) ∧
    (provedPI (proverZ.prove_counting (fun _ => []) (fun _ => []) [true, false])).map
        (fun pi => pi.count) = some (hammingWeight [true, false]) :=
  schemes_agree_on_apk_and_count proverZ (fun _ => []) (fun _ => []) (fun _ => [])
    (fun _ => []) [true, false] (by decide) (by decide)

theorem ecAddX_concrete : ecAddX (0 : ZMod 17) 0 1 3 = 8 := by
  rw [ecAddX]
  simp only [sub_zero, div_one]
  decide

theorem ecAddY_concrete : ecAddY (0 : ZMod 17) 0 1 3 = 10 := by
  rw [ecAddY, ecAddX_concrete]
  simp only [sub_zero, div_one]
  decide

/-- Witness for C2: applied to `d17`, the one-bit bitmask `[true]`, the key
`(1, 3)` and the honest accumulator run `(0,0) → (8,10)` (the affine chord
sum of `(0,0)` and `(1,3)` over `ZMod 17`), both constraint polynomials
vanish at the first base-domain point. -/
theorem conditional_affine_addition_constraints_witness :
    evalPoly (Constraints.compute_conditional_affine_addition_constraint_polynomials
      (Registers.new d17 [true] [(1, 3), (0, 0)] ([0, 8], [0, 10]))).1
      (d17.baseNodes.getD 0 0) = 0 ∧
    evalPoly (Constraints.compute_conditional_affine_addition_constraint_polynomials
      (Registers.new d17 [true] [(1, 3), (0, 0)] ([0, 8], [0, 10]))).2
      (d17.baseNodes.getD 0 0) = 0 :=
  (conditional_affine_addition_constraints d17 (by decide) [true] [(1, 3), (0, 0)]
    ([0, 8], [0, 10]) (by decide) (by decide) (by decide)).2
    (by
      intro i hi
      have hi0 : i = 0 := by
        have hs : d17.size = 2 := rfl
        omega
      subst hi0
      constructor
      · intro _
        refine ⟨by decide, ?_, ?_⟩
        · show (8 : ZMod 17) = ecAddX 0 0 1 3
          exact ecAddX_concrete.symm
        · show (10 : ZMod 17) = ecAddY 0 0 1 3
          exact ecAddY_concrete.symm
      · intro hcontra
        exact absurd hcontra (by decide))
    0 (by decide)

/-- Witness for C5: the claim theorem applied to the domain `d17`, the
boolean register `[0, 1]` and the non-boolean entry 5. -/
theorem booleanity_constraint_properties_witness :
    d17.wf ∧ 1 ≤ d17.size ∧
    evalPoly (Constraints.compute_bitmask_booleanity_constraint_polynomial
      (Registers.new_unchecked d17 [0, 1] ([], []) ([], []) ([], [])))
      (d17.baseNodes.getD 1 0) = 0 ∧
    evalPoly (Constraints.compute_bitmask_booleanity_constraint_polynomial
      (Registers.new_unchecked d17 [0, 5] ([], []) ([], []) ([], [])))
      (d17.baseNodes.getD 1 0) ≠ 0 :=
  ⟨by decide, by decide,
    ((booleanity_constraint_properties d17 (by decide) (by decide)
        ([], []) ([], []) ([], [])).1 [0, 1] (by decide)).2 1 (by decide),
    (booleanity_constraint_properties d17 (by decide) (by decide)
        ([], []) ([], []) ([], [])).2 [0, 5] 1 (by decide) (by decide) (by decide)⟩

/-- Counterexample for C5 as stated: the all-zero register over the size-2
base domain is 0/1-valued, yet the booleanity constraint polynomial it
produces has zero coefficient at index `2(n−1) = 2` (it is the zero
polynomial), so its degree is not exactly `2(n−1)`. -/
theorem booleanity_degree_not_exact_counterexample :
    (∀ v ∈ ([0, 0] : List (ZMod 17)), v = 0 ∨ v = 1) ∧
    coeff (Constraints.compute_bitmask_booleanity_constraint_polynomial
      (Registers.new_unchecked d17 [0, 0] ([], []) ([], []) ([], [])))
      (2 * (d17.size - 1)) = 0 := by
  refine ⟨by decide, ?_⟩
  rw [booleanity_poly_eq_interp_table]
  refine coeff_interp_of_forall_zero _ _ ?_ _
  intro v hv
  rcases List.mem_map.mp hv with ⟨z, hz, rfl⟩
  rw [evalPoly_interp_of_forall_zero d17.baseNodes [0, 0] (by decide) z]
  ring

end ApkProofs
